import Mathlib

/-!
Verification of the tiled zonal-statistics core of `extrapolation_preprocessing`.

The embedding models `Zonal_stats.calc_stats` and `Zonal_stats.get_bins`
(`src/src/extrapolation_preprocessing.py`) over integer-valued rasters:

* a raster is a pair of dimensions with three pixel-value functions
  (population, urban mask, admin zones) plus the nodata sentinels of the
  population and admin bands (the urban band's nodata is never read by the
  code);
* the block sweep of lines 224-234 becomes `offsets`/`tile_dim`/`tiles`;
* `get_bins` (lines 163-175) becomes `get_bins`; `np.empty(1,)` produces an
  unspecified value, modelled by an explicit `garbage` parameter;
* `scipy.stats.binned_statistic_2d(adm, pop, pop, sum, [adm_bins, pop_bins])`
  together with the label/collapse manipulation of lines 247-252 becomes
  `binLabel` (assignment of a value to the half-open bin of a sorted edge
  list, last bin right-inclusive, out-of-range values dropped) and
  `tile_hist_row` (the collapsed per-admin-bin row sum);
* the pandas `groupby('GID').sum()` of lines 266-267 becomes `groupby_sum`
  (pandas sorts group keys ascending), the zone-0 filter and outer join of
  line 268 and the null fill of line 269 become `calc_stats_table`; a missing
  `BSPOP` cell (`NaN`) is modelled as `none : Option Int`.

Numeric values are embedded as `Int` (exact arithmetic in place of the
rasters' machine floats).
-/

/-- Insert an integer into a strictly sorted list, keeping it sorted and
duplicate-free. -/
def insDedup (a : Int) : List Int → List Int
  | [] => [a]
  | b :: l => if a < b then a :: b :: l else if a = b then b :: l else b :: insDedup a l

/-- `np.unique`: the sorted list of distinct values of a buffer. -/
def npUnique (l : List Int) : List Int := l.foldr insDedup []

/-- Python's `max` on a list (0 on the empty list, which the code never hits). -/
def listMax : List Int → Int
  | [] => 0
  | [a] => a
  | a :: b :: l => max a (listMax (b :: l))

/-- Concatenation of the lists produced for each element (the accumulation of
per-block rows into one list). -/
def concatMap (f : α → List β) : List α → List β
  | [] => []
  | a :: l => f a ++ concatMap f l

/-- Assignment of a sample value to a bin of `scipy.stats.binned_statistic_2d`,
given the sorted list of bin edges: every bin is half-open `[e i, e (i+1))`
except the last, which also includes its right edge; a value outside every bin
is dropped.  The result is the left edge (the "label") of the bin of `v`. -/
def binLabel (edges : List Int) (v : Int) : Option Int :=
  match edges with
  | [] => none
  | [_] => none
  | [a, b] => if a ≤ v ∧ v ≤ b then some a else none
  | a :: b :: c :: l => if a ≤ v ∧ v < b then some a else binLabel (b :: c :: l) v

/-- `Zonal_stats.get_bins` (source lines 163-175): `np.unique` of the
flattened buffer, entries equal to the nodata value removed, and
`max(bins) + 1` appended as the terminal bin edge.  When every value is
nodata the deleted array is empty and the code takes `bins = np.empty(1,)`,
whose single entry is unspecified (uninitialized memory); that entry is the
explicit `garbage` parameter here, so the result of that branch is
`[garbage, garbage + 1]`. -/
def get_bins (data : List Int) (nodata garbage : Int) : List Int :=
  match (npUnique data).filter (fun v => v ≠ nodata) with
  | [] => [garbage, garbage + 1]
  | b :: bs => (b :: bs) ++ [listMax (b :: bs) + 1]

/-- One year's co-registered input rasters, as read by `calc_stats`
(lines 205-218): common dimensions, the three bands' pixel values, and the
nodata sentinels of the population and admin bands (the urban band's nodata
value is never read). -/
structure Inputs where
  width : Nat
  height : Nat
  pop : Nat → Nat → Int
  urban : Nat → Nat → Int
  adm : Nat → Nat → Int
  pop_nd : Int
  adm_nd : Int

/-- One block window of the sweep: origin and size, as passed to
`ReadAsArray(x, y, cols, rows)`. -/
structure Tile where
  x : Nat
  y : Nat
  cols : Nat
  rows : Nat
deriving DecidableEq

/-- The offsets generated by `range(0, total, block)` (lines 224 and 229). -/
def offsets (total block : Nat) : List Nat :=
  (List.range total).filter (fun v => v % block = 0)

/-- The clipped window size of lines 225-228 / 231-234: the full block, or
`total - offset` for the final partial block. -/
def tile_dim (total block off : Nat) : Nat :=
  if off + block < total then block else total - off

/-- The sequence of block windows of the sweep (outer loop over `x`,
inner over `y`, lines 224-234). -/
def tiles (W H bw bh : Nat) : List Tile :=
  concatMap (fun x => (offsets H bh).map
    (fun y => Tile.mk x y (tile_dim W bw x) (tile_dim H bh y))) (offsets W bw)

/-- The pixel coordinates covered by a window, in the row-major order of
`ReadAsArray(...).flatten()`. -/
def tile_pixels (x y cols rows : Nat) : List (Nat × Nat) :=
  concatMap (fun j => (List.range cols).map (fun i => (x + i, y + j))) (List.range rows)

/-- A window covers a pixel. -/
def Tile.containsPix (t : Tile) (p : Nat × Nat) : Prop :=
  t.x ≤ p.1 ∧ p.1 < t.x + t.cols ∧ t.y ≤ p.2 ∧ p.2 < t.y + t.rows

instance (t : Tile) (p : Nat × Nat) : Decidable (t.containsPix p) := by
  unfold Tile.containsPix; infer_instance

/-- The masking of line 239: `pop_data[np.where(urban_data == 0)] = 0`, i.e.
the population value of a pixel, zeroed where the urban mask is 0. -/
def masked (inp : Inputs) (p : Nat × Nat) : Int :=
  if inp.urban p.1 p.2 = 0 then 0 else inp.pop p.1 p.2

/-- The flattened masked population window (lines 238-240). -/
def tile_pop_vals (inp : Inputs) (x y cols rows : Nat) : List Int :=
  (tile_pixels x y cols rows).map (masked inp)

/-- The flattened admin window (lines 243-244). -/
def tile_adm_vals (inp : Inputs) (x y cols rows : Nat) : List Int :=
  (tile_pixels x y cols rows).map (fun p => inp.adm p.1 p.2)

/-- One collapsed row of the 2-D binned statistic (lines 247-252): for the
admin bin labelled `z`, the sum over the window of the masked population
values of the pixels whose admin value falls in that bin and whose masked
population value falls inside some population bin (samples out of range in
either coordinate are dropped by `binned_statistic_2d`; summing the histogram
row over the population-value axis is the same as summing the retained masked
values directly, by associativity of addition). -/
def tile_hist_row (inp : Inputs) (g : Int) (x y cols rows : Nat) (z : Int) : Int :=
  ((tile_pixels x y cols rows).map (fun p =>
    if binLabel (get_bins (tile_adm_vals inp x y cols rows) inp.adm_nd g) (inp.adm p.1 p.2)
         = some z
       ∧ (binLabel (get_bins (tile_pop_vals inp x y cols rows) inp.pop_nd g)
           (masked inp p)).isSome
    then masked inp p else 0)).sum

/-- The rows appended to `list_df` for one window (lines 247-252 and
262-264): one `[label, row-sum]` pair per admin bin, kept only when the
label is positive (`if i[0] > 0`).  The labels are the edges of
`get_bins` minus the final appended edge (`adm_bins[:-1]`). -/
def tile_pop_rows (inp : Inputs) (g : Int) (x y cols rows : Nat) : List (Int × Int) :=
  (((get_bins (tile_adm_vals inp x y cols rows) inp.adm_nd g).dropLast).filter
      (fun z => 0 < z)).map
    (fun z => (z, tile_hist_row inp g x y cols rows z))

/-- The rows appended to `stats` for one window (lines 255-259):
`Counter(adm_data_2d[np.where(urban_data == 1)])`, one `[zone, count]` pair
per distinct admin value among the urban pixels of the window.  `Counter`
iterates in insertion order; the order is irrelevant downstream because
`groupby` sorts its keys, so the model lists the keys in sorted order. -/
def tile_count_rows (inp : Inputs) (x y cols rows : Nat) : List (Int × Int) :=
  (npUnique (((tile_pixels x y cols rows).filter
      (fun p => inp.urban p.1 p.2 = 1)).map (fun p => inp.adm p.1 p.2))).map
    (fun z => (z, ((tile_pixels x y cols rows).map
      (fun p => if inp.adm p.1 p.2 = z ∧ inp.urban p.1 p.2 = 1 then (1 : Int) else 0)).sum))

/-- The full `list_df` accumulated over the sweep (lines 220, 262-264). -/
def list_df (inp : Inputs) (g : Int) (bw bh : Nat) : List (Int × Int) :=
  concatMap (fun t => tile_pop_rows inp g t.x t.y t.cols t.rows)
    (tiles inp.width inp.height bw bh)

/-- The full `stats` list accumulated over the sweep (lines 221, 255-259). -/
def stats_list (inp : Inputs) (bw bh : Nat) : List (Int × Int) :=
  concatMap (fun t => tile_count_rows inp t.x t.y t.cols t.rows)
    (tiles inp.width inp.height bw bh)

/-- The sum of the values of the rows carrying key `z`. -/
def sumVal (l : List (Int × Int)) (z : Int) : Int :=
  ((l.filter (fun r => r.1 = z)).map (fun r => r.2)).sum

/-- `pd.DataFrame(...).set_index('GID').groupby('GID').sum()`
(lines 266-267): one row per distinct key, keys sorted ascending (pandas
sorts group keys), each carrying the sum of the values grouped under it. -/
def groupby_sum (l : List (Int × Int)) : List (Int × Int) :=
  (npUnique (l.map (fun r => r.1))).map (fun z => (z, sumVal l z))

/-- Index lookup in a keyed table. -/
def lookupVal (l : List (Int × Int)) (z : Int) : Option Int :=
  (l.find? (fun r => r.1 = z)).map (fun r => r.2)

/-- The finalized per-year table of lines 266-270: the population sums
grouped by `GID`, outer-joined (`pd.concat(..., axis=1)`, which aligns the
two sorted indexes on their union) with the urban counts whose index 0 was
filtered out (line 268), and with null counts replaced by 0 (line 269).
A zone absent from the population side keeps a missing `BSPOP` cell —
a `NaN` in the dataframe — modelled as `none`.  Rows are
`(GID, BSPOP, BSCNT)`. -/
def calc_stats_table (inp : Inputs) (bw bh : Nat) (g : Int) :
    List (Int × Option Int × Int) :=
  (npUnique ((groupby_sum (list_df inp g bw bh)).map (fun r => r.1) ++
      ((groupby_sum (stats_list inp bw bh)).filter (fun r => r.1 ≠ 0)).map
        (fun r => r.1))).map
    (fun z => (z, lookupVal (groupby_sum (list_df inp g bw bh)) z,
      (lookupVal ((groupby_sum (stats_list inp bw bh)).filter (fun r => r.1 ≠ 0))
        z).getD 0))

/-- All pixels of the raster extent (the trivial single-window sweep). -/
def raster_pixels (W H : Nat) : List (Nat × Nat) := tile_pixels 0 0 W H

/-- Direct one-pass aggregate, following the spec's words: the sum of the
masked population over all pixels of zone `z`. -/
def zone_pop_sum (inp : Inputs) (z : Int) : Int :=
  ((raster_pixels inp.width inp.height).map
    (fun p => if inp.adm p.1 p.2 = z then masked inp p else 0)).sum

/-- Direct one-pass aggregate, following the spec's words: the number of
pixels of zone `z` whose urban-mask value is exactly 1. -/
def zone_urban_count (inp : Inputs) (z : Int) : Int :=
  ((raster_pixels inp.width inp.height).map
    (fun p => if inp.adm p.1 p.2 = z ∧ inp.urban p.1 p.2 = 1 then (1 : Int) else 0)).sum

/-- The claim C2 aggregate, literally as worded: the sum of the population
raster values over the pixels of zone `z` whose urban-mask value is 1. -/
def zone_urban_pop_sum (inp : Inputs) (z : Int) : Int :=
  ((raster_pixels inp.width inp.height).map
    (fun p => if inp.adm p.1 p.2 = z ∧ inp.urban p.1 p.2 = 1 then inp.pop p.1 p.2 else 0)).sum

/-- The per-year table computed directly over the full raster in one pass,
following the spec's words (sections 3 and 4.6): one row per distinct
positive zone code of the admin raster, sorted ascending, carrying the
masked population sum and the urban pixel count of that zone. -/
def direct_table (inp : Inputs) : List (Int × Option Int × Int) :=
  ((npUnique ((raster_pixels inp.width inp.height).map (fun p => inp.adm p.1 p.2))).filter
      (fun z => 0 < z)).map
    (fun z => (z, some (zone_pop_sum inp z), zone_urban_count inp z))

/-- Modelled from the spec: `concat_dataframes` is listed in the module
docstring (line 17) and invoked by `main` (src/main.py line 37), but its
implementation is absent from the source.  Following spec section 4.8: it
reads every per-year output table for one region, stacks them into one
long-format series tagged with year, and fails with `MissingInputError`
when any year's table is absent, rather than silently skipping that year. -/
def concat_dataframes (tables : List (Int × Option (List (Int × Option Int × Int)))) :
    Except String (List (Int × Int × Option Int × Int)) :=
  match tables with
  | [] => Except.ok []
  | (_, none) :: _ => Except.error "MissingInputError"
  | (y, some t) :: rest =>
    match concat_dataframes rest with
    | Except.ok rows => Except.ok ((t.map (fun r => (y, r))) ++ rows)
    | Except.error e => Except.error e

/-- A small valid input: 2×2 rasters, binary urban mask, nodata sentinels
outside the value ranges, non-negative admin codes (zone 0 in one corner). -/
def exValid : Inputs where
  width := 2
  height := 2
  pop := fun x y => 1 + 2 * (x : Int) + 3 * (y : Int)
  urban := fun x y => if x = 0 ∧ y = 1 then 0 else 1
  adm := fun x y => if y = 0 then 1 else if x = 0 then 2 else 0
  pop_nd := -99
  adm_nd := -1

/-- A 3×1 population row `[5, 7, 10]` whose nodata sentinel 7 lies strictly
inside the value range; admin all 1, urban all 1. -/
def exNodataRange : Inputs where
  width := 3
  height := 1
  pop := fun x _ => if x = 0 then 5 else if x = 1 then 7 else 10
  urban := fun _ _ => 1
  adm := fun _ _ => 1
  pop_nd := 7
  adm_nd := -1

/-- A 2×1 input whose second pixel carries the negative admin code -5 and is
urban; nodata sentinels out of range. -/
def exNegZone : Inputs where
  width := 2
  height := 1
  pop := fun x _ => if x = 0 then 10 else 3
  urban := fun _ _ => 1
  adm := fun x _ => if x = 0 then 1 else -5
  pop_nd := -1
  adm_nd := -99

/-- A 2×1 input containing zone code 0 next to zone 5, all urban. -/
def exZoneZero : Inputs where
  width := 2
  height := 1
  pop := fun _ _ => 4
  urban := fun _ _ => 1
  adm := fun x _ => if x = 0 then 0 else 5
  pop_nd := -1
  adm_nd := -99

/-- A 1×1 input whose single admin pixel is the nodata code 99 and whose
single pixel is urban with population 10. -/
def exAllNodataUrban : Inputs where
  width := 1
  height := 1
  pop := fun _ _ => 10
  urban := fun _ _ => 1
  adm := fun _ _ => 99
  pop_nd := -1
  adm_nd := 99

/-- A 1×1 input whose single admin pixel is the nodata code 99 and whose
single pixel is not urban. -/
def exAllNodataQuiet : Inputs where
  width := 1
  height := 1
  pop := fun _ _ => 10
  urban := fun _ _ => 0
  adm := fun _ _ => 99
  pop_nd := -1
  adm_nd := 99

/-- A 2×1 input whose population row is `[5, 7]` with population nodata
sentinel 7 — a nodata-valued pixel on an urban, valid-zone position; admin all
1, urban all 1. -/
def exPopNodata : Inputs where
  width := 2
  height := 1
  pop := fun x _ => if x = 0 then 5 else 7
  urban := fun _ _ => 1
  adm := fun _ _ => 1
  pop_nd := 7
  adm_nd := -1

theorem mem_insDedup {b a : Int} {l : List Int} : b ∈ insDedup a l ↔ b = a ∨ b ∈ l := by
  induction l with
  | nil => simp [insDedup]
  | cons c l ih =>
    by_cases h1 : a < c
    · simp [insDedup, h1]
    · by_cases h2 : a = c
      · subst h2
        simp only [insDedup, if_neg h1, if_pos rfl]
        constructor
        · exact fun h => Or.inr h
        · rintro (h | h)
          · exact h ▸ List.mem_cons_self a l
          · exact h
      · simp [insDedup, h1, h2, ih]; tauto

theorem mem_npUnique {a : Int} {l : List Int} : a ∈ npUnique l ↔ a ∈ l := by
  induction l with
  | nil => simp [npUnique]
  | cons b l ih =>
    show a ∈ insDedup b (npUnique l) ↔ _
    rw [mem_insDedup, ih]; simp

theorem chain'_cons_insDedup {b a : Int} {l : List Int}
    (h : List.Chain' (· < ·) (b :: l)) (hba : b < a) :
    List.Chain' (· < ·) (b :: insDedup a l) := by
  induction l generalizing b with
  | nil => simpa [insDedup] using hba
  | cons c t ih =>
    rw [List.chain'_cons] at h
    by_cases h1 : a < c
    · simp only [insDedup, if_pos h1]
      exact List.chain'_cons.2 ⟨hba, List.chain'_cons.2 ⟨h1, h.2⟩⟩
    · by_cases h2 : a = c
      · simp only [insDedup, if_neg h1, if_pos h2]
        exact List.chain'_cons.2 ⟨h.1, h.2⟩
      · simp only [insDedup, if_neg h1, if_neg h2]
        have hca : c < a := by omega
        exact List.chain'_cons.2 ⟨h.1, ih h.2 hca⟩

theorem chain'_insDedup {a : Int} {l : List Int}
    (h : List.Chain' (· < ·) l) : List.Chain' (· < ·) (insDedup a l) := by
  cases l with
  | nil => simp [insDedup]
  | cons b t =>
    by_cases h1 : a < b
    · simp only [insDedup, if_pos h1]
      exact List.chain'_cons.2 ⟨h1, h⟩
    · by_cases h2 : a = b
      · simpa [insDedup, h1, h2] using h
      · simp only [insDedup, if_neg h1, if_neg h2]
        exact chain'_cons_insDedup h (by omega)

theorem chain'_npUnique (l : List Int) : List.Chain' (· < ·) (npUnique l) := by
  induction l with
  | nil => simp [npUnique]
  | cons a l ih => exact chain'_insDedup ih

/-- In a strictly increasing list, the head is a strict lower bound of the tail. -/
theorem chain'_lt_head_lt {a b : Int} {l : List Int}
    (h : List.Chain' (· < ·) (a :: l)) (hb : b ∈ l) : a < b := by
  induction l generalizing a with
  | nil => cases hb
  | cons c t ih =>
    rw [List.chain'_cons] at h
    rcases List.mem_cons.1 hb with hb | hb
    · exact hb ▸ h.1
    · exact lt_trans h.1 (ih h.2 hb)

/-- Two strictly sorted integer lists with the same members are equal. -/
theorem chain'_lt_ext : ∀ {l₁ l₂ : List Int}, List.Chain' (· < ·) l₁ →
    List.Chain' (· < ·) l₂ → (∀ a, a ∈ l₁ ↔ a ∈ l₂) → l₁ = l₂
  | [], [], _, _, _ => rfl
  | [], b :: l₂, _, _, hm => absurd ((hm b).2 (List.mem_cons_self b l₂)) (List.not_mem_nil b)
  | a :: l₁, [], _, _, hm => absurd ((hm a).1 (List.mem_cons_self a l₁)) (List.not_mem_nil a)
  | a :: l₁, b :: l₂, h₁, h₂, hm => by
    have hab : a = b := by
      have ha : a ∈ b :: l₂ := (hm a).1 (List.mem_cons_self a l₁)
      have hb : b ∈ a :: l₁ := (hm b).2 (List.mem_cons_self b l₂)
      rcases List.mem_cons.1 ha with h | h
      · exact h
      · rcases List.mem_cons.1 hb with h' | h'
        · exact h'.symm
        · have h1 : b < a := chain'_lt_head_lt h₂ h
          have h2 : a < b := chain'_lt_head_lt h₁ h'
          omega
    subst hab
    have htl : ∀ x, x ∈ l₁ ↔ x ∈ l₂ := by
      intro x
      constructor
      · intro hx
        have hax : a < x := chain'_lt_head_lt h₁ hx
        have : x ∈ a :: l₂ := (hm x).1 (List.mem_cons_of_mem a hx)
        rcases List.mem_cons.1 this with h | h
        · exact absurd (h ▸ hax) (lt_irrefl a)
        · exact h
      · intro hx
        have hax : a < x := chain'_lt_head_lt h₂ hx
        have : x ∈ a :: l₁ := (hm x).2 (List.mem_cons_of_mem a hx)
        rcases List.mem_cons.1 this with h | h
        · exact absurd (h ▸ hax) (lt_irrefl a)
        · exact h
    have h₁' : List.Chain' (· < ·) l₁ := h₁.tail
    have h₂' : List.Chain' (· < ·) l₂ := h₂.tail
    rw [chain'_lt_ext h₁' h₂' htl]

theorem le_listMax {x : Int} : ∀ {l : List Int}, x ∈ l → x ≤ listMax l
  | [a], hx => by simp at hx; simp [listMax, hx]
  | a :: b :: l, hx => by
    rcases List.mem_cons.1 hx with h | h
    · simp [listMax, h]
    · have := le_listMax h
      simp only [listMax]
      exact le_max_of_le_right this

theorem mem_concatMap {f : α → List β} {b : β} :
    ∀ {l : List α}, b ∈ concatMap f l ↔ ∃ a ∈ l, b ∈ f a := by
  intro l
  induction l with
  | nil => simp [concatMap]
  | cons a l ih => simp [concatMap, ih]

theorem concatMap_append {f : α → List β} (l₁ l₂ : List α) :
    concatMap f (l₁ ++ l₂) = concatMap f l₁ ++ concatMap f l₂ := by
  induction l₁ with
  | nil => simp [concatMap]
  | cons a l ih => simp [concatMap, ih]

theorem nodup_concatMap {f : α → List β} : ∀ {l : List α},
    (∀ a ∈ l, (f a).Nodup) →
    (∀ a₁ ∈ l, ∀ a₂ ∈ l, a₁ ≠ a₂ → ∀ b, b ∈ f a₁ → b ∉ f a₂) →
    l.Nodup → (concatMap f l).Nodup := by
  intro l
  induction l with
  | nil => intro _ _ _; simp [concatMap]
  | cons a l ih =>
    intro hn hd hl
    rw [List.nodup_cons] at hl
    refine List.Nodup.append (hn a (List.mem_cons_self a l))
      (ih (fun x hx => hn x (List.mem_cons_of_mem a hx))
          (fun x hx y hy => hd x (List.mem_cons_of_mem a hx) y (List.mem_cons_of_mem a hy))
          hl.2) ?_
    intro b hb hb'
    rcases mem_concatMap.1 hb' with ⟨a', ha', hba'⟩
    have hne : a ≠ a' := fun he => hl.1 (he ▸ ha')
    exact hd a (List.mem_cons_self a l) a' (List.mem_cons_of_mem a ha') hne b hb hba'

theorem sum_map_concatMap {f : α → List β} (g : β → Int) : ∀ (l : List α),
    ((concatMap f l).map g).sum = (l.map (fun a => ((f a).map g).sum)).sum := by
  intro l
  induction l with
  | nil => simp [concatMap]
  | cons a l ih => simp [concatMap, ih]

theorem sum_map_eq_zero {f : α → Int} : ∀ {l : List α}, (∀ a ∈ l, f a = 0) →
    (l.map f).sum = 0 := by
  intro l
  induction l with
  | nil => simp
  | cons a l ih =>
    intro h
    simp only [List.map_cons, List.sum_cons, h a (List.mem_cons_self a l),
      ih (fun x hx => h x (List.mem_cons_of_mem a hx)), add_zero]

theorem sum_map_congr {f g : α → Int} : ∀ {l : List α}, (∀ a ∈ l, f a = g a) →
    (l.map f).sum = (l.map g).sum := by
  intro l
  induction l with
  | nil => simp
  | cons a l ih =>
    intro h
    simp only [List.map_cons, List.sum_cons, h a (List.mem_cons_self a l),
      ih (fun x hx => h x (List.mem_cons_of_mem a hx))]

/-- A value equal to one of the edges of a strictly sorted edge list
`l ++ [m]` (other than the final edge) lands in its own bin. -/
theorem binLabel_mem_self : ∀ {l : List Int} {m v : Int},
    List.Chain' (· < ·) (l ++ [m]) → v ∈ l → binLabel (l ++ [m]) v = some v := by
  intro l
  induction l with
  | nil => intro m v _ hv; cases hv
  | cons a t ih =>
    intro m v hc hv
    cases t with
    | nil =>
      rcases List.mem_cons.1 hv with h | h
      · subst h
        have hm : v < m := by
          simpa [List.chain'_cons] using hc
        simp [binLabel, le_of_lt hm]
      · cases h
    | cons b t' =>
      have hc' : List.Chain' (· < ·) ((b :: t') ++ [m]) := hc.tail
      have hab : a < b := by
        rcases List.chain'_cons.1 hc with ⟨h1, _⟩
        exact h1
      rcases List.mem_cons.1 hv with h | h
      · subst h
        show binLabel (v :: b :: (t' ++ [m])) v = some v
        cases t' with
        | nil => simp [binLabel, hab]
        | cons c t'' => simp [binLabel, hab]
      · have hbv : b ≤ v := by
          rcases List.mem_cons.1 h with h' | h'
          · exact le_of_eq h'.symm
          · exact le_of_lt (chain'_lt_head_lt (hc'.left_of_append) h')
        have hrec : binLabel ((b :: t') ++ [m]) v = some v := ih hc' h
        show binLabel (a :: b :: (t' ++ [m])) v = some v
        cases ht' : t' ++ [m] with
        | nil => exact absurd ht' (by simp)
        | cons c l'' =>
          have : ¬ (a ≤ v ∧ v < b) := fun hh => absurd hh.2 (not_lt.2 hbv)
          simp only [binLabel, if_neg this]
          rw [List.cons_append, ht'] at hrec
          exact hrec

theorem mem_offsets {o total block : Nat} :
    o ∈ offsets total block ↔ o < total ∧ o % block = 0 := by
  simp [offsets, List.mem_filter, List.mem_range, and_comm]

theorem tile_dim_pos {total block off : Nat} (hb : 1 ≤ block) (ho : off < total) :
    0 < tile_dim total block off := by
  unfold tile_dim; split <;> omega

theorem tile_dim_le_block {total block off : Nat} :
    tile_dim total block off ≤ block ∨ total ≤ off + block := by
  unfold tile_dim; split <;> omega

theorem off_add_tile_dim_le {total block off : Nat} (h : off < total) :
    off + tile_dim total block off ≤ total := by
  unfold tile_dim; split <;> omega

theorem offsets_cover {total block p : Nat} (hb : 1 ≤ block) (hp : p < total) :
    block * (p / block) ∈ offsets total block ∧ block * (p / block) ≤ p ∧
      p < block * (p / block) + tile_dim total block (block * (p / block)) := by
  have hle : block * (p / block) ≤ p := Nat.mul_div_le p block
  have hmod : block * (p / block) % block = 0 := Nat.mul_mod_right block _
  have hdm : block * (p / block) + p % block = p := Nat.div_add_mod p block
  have hmlt : p % block < block := Nat.mod_lt p hb
  refine ⟨mem_offsets.2 ⟨by omega, hmod⟩, hle, ?_⟩
  unfold tile_dim; split <;> omega

theorem offsets_unique {total block p o : Nat} (ho : o ∈ offsets total block)
    (h1 : o ≤ p) (h2 : p < o + tile_dim total block o) : o = block * (p / block) := by
  rcases mem_offsets.1 ho with ⟨holt, hom⟩
  rcases Nat.dvd_of_mod_eq_zero hom with ⟨k, hk⟩
  have hdim : tile_dim total block o ≤ block := by
    unfold tile_dim; split <;> omega
  have hlt : p < o + block := by omega
  have hk' : o = k * block := by rw [hk, Nat.mul_comm]
  have hd : p / block = k := by
    apply Nat.div_eq_of_lt_le
    · omega
    · rw [Nat.succ_mul]; omega
  rw [hd]; exact hk

theorem mem_tile_pixels {x y cols rows : Nat} {p : Nat × Nat} :
    p ∈ tile_pixels x y cols rows ↔
      x ≤ p.1 ∧ p.1 < x + cols ∧ y ≤ p.2 ∧ p.2 < y + rows := by
  rcases p with ⟨a, b⟩
  simp only [tile_pixels, mem_concatMap, List.mem_map, List.mem_range, Prod.mk.injEq]
  constructor
  · rintro ⟨j, hj, i, hi, h1, h2⟩
    omega
  · rintro ⟨h1, h2, h3, h4⟩
    exact ⟨b - y, by omega, ⟨a - x, by omega, by omega, by omega⟩⟩

theorem nodup_tile_pixels (x y cols rows : Nat) : (tile_pixels x y cols rows).Nodup := by
  apply nodup_concatMap
  · intro j _
    refine List.Nodup.map ?_ (List.nodup_range cols)
    intro i₁ i₂ h
    simpa using h
  · intro j₁ _ j₂ _ hne b hb₁ hb₂
    rcases List.mem_map.1 hb₁ with ⟨i₁, _, hi₁⟩
    rcases List.mem_map.1 hb₂ with ⟨i₂, _, hi₂⟩
    apply hne
    have : y + j₁ = y + j₂ := by
      rw [← hi₂] at hi₁
      exact congrArg Prod.snd hi₁
    omega
  · exact List.nodup_range rows

theorem mem_tiles {W H bw bh : Nat} {t : Tile} :
    t ∈ tiles W H bw bh ↔ t.x ∈ offsets W bw ∧ t.y ∈ offsets H bh ∧
      t.cols = tile_dim W bw t.x ∧ t.rows = tile_dim H bh t.y := by
  rcases t with ⟨tx, ty, tc, tr⟩
  simp only [tiles, mem_concatMap, List.mem_map, Tile.mk.injEq]
  constructor
  · rintro ⟨x, hx, y, hy, h1, h2, h3, h4⟩
    subst h1; subst h2; subst h3; subst h4
    exact ⟨hx, hy, rfl, rfl⟩
  · rintro ⟨hx, hy, h3, h4⟩
    exact ⟨tx, hx, ty, hy, rfl, rfl, h3.symm, h4.symm⟩

theorem containsPix_lt {W H bw bh : Nat} {t : Tile} {p : Nat × Nat}
    (ht : t ∈ tiles W H bw bh) (hc : t.containsPix p) : p.1 < W ∧ p.2 < H := by
  rcases mem_tiles.1 ht with ⟨hx, hy, hcols, hrows⟩
  rcases hc with ⟨h1, h2, h3, h4⟩
  have e1 := @off_add_tile_dim_le W bw t.x (mem_offsets.1 hx).1
  have e2 := @off_add_tile_dim_le H bh t.y (mem_offsets.1 hy).1
  omega

theorem tiles_cover {W H bw bh : Nat} (hbw : 1 ≤ bw) (hbh : 1 ≤ bh) {p : Nat × Nat}
    (h1 : p.1 < W) (h2 : p.2 < H) : ∃ t ∈ tiles W H bw bh, t.containsPix p := by
  rcases offsets_cover hbw h1 with ⟨hm1, hle1, hlt1⟩
  rcases offsets_cover hbh h2 with ⟨hm2, hle2, hlt2⟩
  refine ⟨Tile.mk (bw * (p.1 / bw)) (bh * (p.2 / bh))
    (tile_dim W bw (bw * (p.1 / bw))) (tile_dim H bh (bh * (p.2 / bh))), ?_, ?_⟩
  · exact mem_tiles.2 ⟨hm1, hm2, rfl, rfl⟩
  · exact ⟨hle1, hlt1, hle2, hlt2⟩

theorem tiles_unique {W H bw bh : Nat} {t₁ t₂ : Tile} {p : Nat × Nat}
    (ht₁ : t₁ ∈ tiles W H bw bh) (ht₂ : t₂ ∈ tiles W H bw bh)
    (hc₁ : t₁.containsPix p) (hc₂ : t₂.containsPix p) : t₁ = t₂ := by
  rcases mem_tiles.1 ht₁ with ⟨hx₁, hy₁, hcols₁, hrows₁⟩
  rcases mem_tiles.1 ht₂ with ⟨hx₂, hy₂, hcols₂, hrows₂⟩
  rcases hc₁ with ⟨a₁, b₁, c₁, d₁⟩
  rcases hc₂ with ⟨a₂, b₂, c₂, d₂⟩
  have ex₁ : t₁.x = bw * (p.1 / bw) := offsets_unique hx₁ a₁ (by omega)
  have ex₂ : t₂.x = bw * (p.1 / bw) := offsets_unique hx₂ a₂ (by omega)
  have ey₁ : t₁.y = bh * (p.2 / bh) := offsets_unique hy₁ c₁ (by omega)
  have ey₂ : t₂.y = bh * (p.2 / bh) := offsets_unique hy₂ c₂ (by omega)
  rcases t₁ with ⟨x₁, y₁, cc₁, rr₁⟩
  rcases t₂ with ⟨x₂, y₂, cc₂, rr₂⟩
  simp only at ex₁ ex₂ ey₁ ey₂ hcols₁ hcols₂ hrows₁ hrows₂
  subst ex₁; subst ey₁; subst hcols₁; subst hrows₁
  simp [Tile.mk.injEq, ex₂, ey₂, hcols₂, hrows₂]

theorem nodup_offsets (total block : Nat) : (offsets total block).Nodup :=
  List.Nodup.filter _ (List.nodup_range total)

theorem nodup_tiles (W H bw bh : Nat) : (tiles W H bw bh).Nodup := by
  apply nodup_concatMap
  · intro x _
    refine List.Nodup.map ?_ (nodup_offsets H bh)
    intro y₁ y₂ h
    exact congrArg Tile.y h
  · intro x₁ _ x₂ _ hne t ht₁ ht₂
    rcases List.mem_map.1 ht₁ with ⟨y₁, _, e₁⟩
    rcases List.mem_map.1 ht₂ with ⟨y₂, _, e₂⟩
    exact hne (congrArg Tile.x (e₁.trans e₂.symm))
  · exact nodup_offsets W bw

theorem tiles_pixels_perm {W H bw bh : Nat} (hbw : 1 ≤ bw) (hbh : 1 ≤ bh) :
    (concatMap (fun t => tile_pixels t.x t.y t.cols t.rows) (tiles W H bw bh)).Perm
      (raster_pixels W H) := by
  refine (List.perm_ext_iff_of_nodup ?_ ?_).2 ?_
  · apply nodup_concatMap
    · intro t _
      exact nodup_tile_pixels t.x t.y t.cols t.rows
    · intro t₁ h₁ t₂ h₂ hne p hp₁ hp₂
      exact hne (tiles_unique h₁ h₂ (mem_tile_pixels.1 hp₁) (mem_tile_pixels.1 hp₂))
    · exact nodup_tiles W H bw bh
  · exact nodup_tile_pixels 0 0 W H
  · intro p
    rw [mem_concatMap]
    constructor
    · rintro ⟨t, ht, hp⟩
      have hc : t.containsPix p := mem_tile_pixels.1 hp
      have hlt := containsPix_lt ht hc
      exact mem_tile_pixels.2 (by omega)
    · intro hp
      obtain ⟨h1, h2, h3, h4⟩ := mem_tile_pixels.1 hp
      have hw : p.1 < W := by omega
      have hh : p.2 < H := by omega
      rcases tiles_cover hbw hbh hw hh with ⟨t, ht, hc⟩
      exact ⟨t, ht, mem_tile_pixels.2 hc⟩

theorem sum_over_tiles {W H bw bh : Nat} (hbw : 1 ≤ bw) (hbh : 1 ≤ bh) (f : Nat × Nat → Int) :
    ((tiles W H bw bh).map (fun t => ((tile_pixels t.x t.y t.cols t.rows).map f).sum)).sum
      = ((raster_pixels W H).map f).sum := by
  rw [← sum_map_concatMap]
  exact List.Perm.sum_eq (List.Perm.map f (tiles_pixels_perm hbw hbh))

theorem mem_raster_of_mem_tile {W H bw bh : Nat} {t : Tile} {p : Nat × Nat}
    (ht : t ∈ tiles W H bw bh) (hp : p ∈ tile_pixels t.x t.y t.cols t.rows) :
    p ∈ raster_pixels W H := by
  have hlt := containsPix_lt ht (mem_tile_pixels.1 hp)
  exact mem_tile_pixels.2 (by omega)

theorem get_bins_nonempty {data : List Int} {nd g v : Int}
    (hv : v ∈ data) (hne : v ≠ nd) :
    get_bins data nd g = ((npUnique data).filter (fun w => w ≠ nd)) ++
      [listMax ((npUnique data).filter (fun w => w ≠ nd)) + 1] := by
  have hmem : v ∈ (npUnique data).filter (fun w => w ≠ nd) :=
    List.mem_filter.2 ⟨mem_npUnique.2 hv, by simp [hne]⟩
  unfold get_bins
  split
  next heq => rw [heq] at hmem; cases hmem
  next b bs heq => rw [heq]

theorem chain'_lt_filter {p : Int → Bool} {l : List Int} (h : List.Chain' (· < ·) l) :
    List.Chain' (· < ·) (l.filter p) := by
  rw [List.chain'_iff_pairwise] at h ⊢
  exact h.filter p

theorem nodup_of_chain'_lt {l : List Int} (h : List.Chain' (· < ·) l) : l.Nodup := by
  rw [List.chain'_iff_pairwise] at h
  exact h.imp ne_of_lt

theorem chain'_append_listMax {bs : List Int} (h : List.Chain' (· < ·) bs) :
    List.Chain' (· < ·) (bs ++ [listMax bs + 1]) := by
  rw [List.chain'_append]
  refine ⟨h, List.chain'_singleton _, ?_⟩
  intro x hx y hy
  simp only [List.head?_cons, Option.mem_def, Option.some.injEq] at hy
  have hxm : x ∈ bs := List.mem_of_mem_getLast? hx
  have := le_listMax hxm
  omega

theorem dropLast_append_singleton {l : List Int} {a : Int} : (l ++ [a]).dropLast = l := by
  simp

/-- Under a strictly sorted non-final edge value, `binLabel` over the
`get_bins` edges sends each retained distinct value to itself. -/
theorem binLabel_get_bins_self {data : List Int} {nd g v : Int}
    (hv : v ∈ data) (hne : v ≠ nd) :
    binLabel (get_bins data nd g) v = some v := by
  rw [get_bins_nonempty hv hne]
  refine binLabel_mem_self ?_ ?_
  · exact chain'_append_listMax (chain'_lt_filter (chain'_npUnique data))
  · exact List.mem_filter.2 ⟨mem_npUnique.2 hv, by simp [hne]⟩

/-- A pixel of the window either has its masked population value inside the
population bins, or that value is zero (so it cannot move any sum). -/
theorem pop_inrange_or_zero {inp : Inputs} {g : Int} {x y cols rows : Nat}
    {p : Nat × Nat} (hp : p ∈ tile_pixels x y cols rows)
    (hpop : inp.pop p.1 p.2 ≠ inp.pop_nd) :
    (binLabel (get_bins (tile_pop_vals inp x y cols rows) inp.pop_nd g)
      (masked inp p)).isSome = true ∨ masked inp p = 0 := by
  by_cases hm : masked inp p = inp.pop_nd
  · right
    unfold masked
    split
    · rfl
    next hurb =>
      exfalso
      unfold masked at hm
      rw [if_neg hurb] at hm
      exact hpop hm
  · left
    have hv : masked inp p ∈ tile_pop_vals inp x y cols rows :=
      List.mem_map.2 ⟨p, hp, rfl⟩
    rw [binLabel_get_bins_self hv hm]
    rfl

/-- The admin value of a pixel of the window lands in its own bin. -/
theorem adm_binLabel_self {inp : Inputs} {g : Int} {x y cols rows : Nat}
    {p : Nat × Nat} (hp : p ∈ tile_pixels x y cols rows)
    (hadm : inp.adm p.1 p.2 ≠ inp.adm_nd) :
    binLabel (get_bins (tile_adm_vals inp x y cols rows) inp.adm_nd g)
      (inp.adm p.1 p.2) = some (inp.adm p.1 p.2) := by
  have hv : inp.adm p.1 p.2 ∈ tile_adm_vals inp x y cols rows :=
    List.mem_map.2 ⟨p, hp, rfl⟩
  exact binLabel_get_bins_self hv hadm

/-- On a window whose pixels carry no nodata value in the population or admin
band, the collapsed histogram row of the bin labelled `z` is the plain grouped
sum of the masked population over the pixels of zone `z`. -/
theorem tile_hist_row_eq {inp : Inputs} {g : Int} {x y cols rows : Nat}
    (hpop : ∀ p ∈ tile_pixels x y cols rows, inp.pop p.1 p.2 ≠ inp.pop_nd)
    (hadm : ∀ p ∈ tile_pixels x y cols rows, inp.adm p.1 p.2 ≠ inp.adm_nd)
    (z : Int) :
    tile_hist_row inp g x y cols rows z =
      ((tile_pixels x y cols rows).map
        (fun p => if inp.adm p.1 p.2 = z then masked inp p else 0)).sum := by
  apply sum_map_congr
  intro p hp
  rw [adm_binLabel_self hp (hadm p hp)]
  rcases @pop_inrange_or_zero inp g x y cols rows p hp (hpop p hp) with h | h
  · simp only [h, and_true, Option.some.injEq]
  · simp only [h, ite_self]

theorem get_bins_labels {data : List Int} {nd g v : Int} (hv : v ∈ data) (hne : v ≠ nd)
    (hall : ∀ w ∈ data, w ≠ nd) :
    (get_bins data nd g).dropLast = npUnique data := by
  rw [get_bins_nonempty hv hne, dropLast_append_singleton]
  apply List.filter_eq_self.2
  intro a ha
  simp [hall a (mem_npUnique.1 ha)]

/-- On a non-empty window without nodata pixels, the rows the code appends to
`list_df` are exactly one row per distinct positive admin code of the window,
carrying the plain grouped masked-population sum of that code. -/
theorem tile_pop_rows_eq {inp : Inputs} {g : Int} {x y cols rows : Nat}
    (hne : tile_pixels x y cols rows ≠ [])
    (hpop : ∀ p ∈ tile_pixels x y cols rows, inp.pop p.1 p.2 ≠ inp.pop_nd)
    (hadm : ∀ p ∈ tile_pixels x y cols rows, inp.adm p.1 p.2 ≠ inp.adm_nd) :
    tile_pop_rows inp g x y cols rows =
      ((npUnique (tile_adm_vals inp x y cols rows)).filter (fun z => 0 < z)).map
        (fun z => (z, ((tile_pixels x y cols rows).map
          (fun p => if inp.adm p.1 p.2 = z then masked inp p else 0)).sum)) := by
  obtain ⟨p₀, hp₀⟩ := List.exists_mem_of_ne_nil _ hne
  have hv : inp.adm p₀.1 p₀.2 ∈ tile_adm_vals inp x y cols rows :=
    List.mem_map.2 ⟨p₀, hp₀, rfl⟩
  have hall : ∀ w ∈ tile_adm_vals inp x y cols rows, w ≠ inp.adm_nd := by
    intro w hw
    rcases List.mem_map.1 hw with ⟨p, hp, hpe⟩
    exact hpe ▸ hadm p hp
  unfold tile_pop_rows
  rw [get_bins_labels hv (hall _ hv) hall]
  apply List.map_congr_left
  intro z _
  rw [tile_hist_row_eq hpop hadm]

theorem sumVal_cons {a : Int × Int} {l : List (Int × Int)} {z : Int} :
    sumVal (a :: l) z = (if a.1 = z then a.2 else 0) + sumVal l z := by
  unfold sumVal
  rw [List.filter_cons]
  by_cases h : a.1 = z
  · simp [h]
  · simp [h]

theorem sumVal_append {l₁ l₂ : List (Int × Int)} {z : Int} :
    sumVal (l₁ ++ l₂) z = sumVal l₁ z + sumVal l₂ z := by
  unfold sumVal
  rw [List.filter_append, List.map_append, List.sum_append]

theorem sumVal_concatMap {f : α → List (Int × Int)} {z : Int} : ∀ (l : List α),
    sumVal (concatMap f l) z = (l.map (fun a => sumVal (f a) z)).sum := by
  intro l
  induction l with
  | nil => simp [concatMap, sumVal]
  | cons a l ih => simp [concatMap, sumVal_append, ih]

theorem sumVal_keyed {v : Int → Int} {z : Int} : ∀ {ks : List Int}, ks.Nodup →
    sumVal (ks.map (fun k => (k, v k))) z = if z ∈ ks then v z else 0 := by
  intro ks
  induction ks with
  | nil => intro _; simp [sumVal]
  | cons k ks ih =>
    intro hn
    rw [List.nodup_cons] at hn
    rw [List.map_cons, sumVal_cons, ih hn.2]
    by_cases hkz : k = z
    · subst hkz
      simp only [if_pos rfl, List.mem_cons, true_or, if_pos]
      rw [if_neg hn.1, add_zero]
    · have hmem : (z ∈ k :: ks) ↔ z ∈ ks := by
        rw [List.mem_cons]
        constructor
        · rintro (h | h)
          · exact absurd h.symm hkz
          · exact h
        · exact Or.inr
      rw [if_neg hkz, zero_add, if_congr hmem rfl rfl]

theorem lookupVal_keyed_mem {v : Int → Int} {z : Int} : ∀ {ks : List Int}, z ∈ ks →
    lookupVal (ks.map (fun k => (k, v k))) z = some (v z) := by
  intro ks
  induction ks with
  | nil => intro h; cases h
  | cons k ks ih =>
    intro h
    unfold lookupVal
    rw [List.map_cons]
    by_cases hkz : k = z
    · subst hkz
      rw [List.find?_cons_of_pos _ (by simp)]
      rfl
    · rw [List.find?_cons_of_neg _ (by simp [hkz])]
      rcases List.mem_cons.1 h with h' | h'
      · exact absurd h'.symm hkz
      · exact ih h'

theorem lookupVal_keyed_not_mem {v : Int → Int} {z : Int} : ∀ {ks : List Int}, z ∉ ks →
    lookupVal (ks.map (fun k => (k, v k))) z = none := by
  intro ks
  induction ks with
  | nil => intro _; rfl
  | cons k ks ih =>
    intro h
    unfold lookupVal
    rw [List.map_cons, List.find?_cons_of_neg _ (by simp; rintro rfl; exact h (List.mem_cons_self k ks))]
    exact ih (fun h' => h (List.mem_cons_of_mem k h'))

theorem tile_pixels_ne_nil {W H bw bh : Nat} {t : Tile} (hbw : 1 ≤ bw) (hbh : 1 ≤ bh)
    (ht : t ∈ tiles W H bw bh) : tile_pixels t.x t.y t.cols t.rows ≠ [] := by
  rcases mem_tiles.1 ht with ⟨hx, hy, hc, hr⟩
  have h1 := (mem_offsets.1 hx).1
  have h2 := (mem_offsets.1 hy).1
  have hcp : 0 < t.cols := hc ▸ tile_dim_pos hbw h1
  have hrp : 0 < t.rows := hr ▸ tile_dim_pos hbh h2
  intro hnil
  have hm : (t.x, t.y) ∈ tile_pixels t.x t.y t.cols t.rows :=
    mem_tile_pixels.2 ⟨le_refl _, by omega, le_refl _, by omega⟩
  rw [hnil] at hm
  cases hm

theorem forall_tile_of_forall_extent {W H bw bh : Nat} {t : Tile} {P : Nat → Nat → Prop}
    (ht : t ∈ tiles W H bw bh) (H : ∀ x, x < W → ∀ y, y < H → P x y) :
    ∀ p ∈ tile_pixels t.x t.y t.cols t.rows, P p.1 p.2 := by
  intro p hp
  have hlt := containsPix_lt ht (mem_tile_pixels.1 hp)
  exact H p.1 hlt.1 p.2 hlt.2

theorem mem_tile_val_iff {W H bw bh : Nat} (hbw : 1 ≤ bw) (hbh : 1 ≤ bh)
    (f : Nat × Nat → Int) (z : Int) :
    (∃ t ∈ tiles W H bw bh, z ∈ (tile_pixels t.x t.y t.cols t.rows).map f) ↔
      z ∈ (raster_pixels W H).map f := by
  constructor
  · rintro ⟨t, ht, hz⟩
    rcases List.mem_map.1 hz with ⟨p, hp, he⟩
    exact List.mem_map.2 ⟨p, mem_raster_of_mem_tile ht hp, he⟩
  · intro hz
    rcases List.mem_map.1 hz with ⟨p, hp, he⟩
    obtain ⟨h1, h2, h3, h4⟩ := mem_tile_pixels.1 hp
    have hw : p.1 < W := by omega
    have hh : p.2 < H := by omega
    rcases tiles_cover hbw hbh hw hh with ⟨t, ht, hc⟩
    exact ⟨t, ht, List.mem_map.2 ⟨p, mem_tile_pixels.2 hc, he⟩⟩

/-- Accumulated over all blocks, the population pipeline's grouped sum at a
positive zone code equals the direct full-raster masked-population sum of that
zone, provided no pixel carries a nodata sentinel. -/
theorem sumVal_list_df {inp : Inputs} {g : Int} {bw bh : Nat}
    (hbw : 1 ≤ bw) (hbh : 1 ≤ bh)
    (Hpop : ∀ x, x < inp.width → ∀ y, y < inp.height → inp.pop x y ≠ inp.pop_nd)
    (Hadm : ∀ x, x < inp.width → ∀ y, y < inp.height → inp.adm x y ≠ inp.adm_nd)
    {z : Int} (hz : 0 < z) :
    sumVal (list_df inp g bw bh) z = zone_pop_sum inp z := by
  unfold list_df
  rw [sumVal_concatMap]
  have hcong : ∀ t ∈ tiles inp.width inp.height bw bh,
      sumVal (tile_pop_rows inp g t.x t.y t.cols t.rows) z =
      ((tile_pixels t.x t.y t.cols t.rows).map
        (fun p => if inp.adm p.1 p.2 = z then masked inp p else 0)).sum := by
    intro t ht
    rw [tile_pop_rows_eq (tile_pixels_ne_nil hbw hbh ht)
        (forall_tile_of_forall_extent ht Hpop) (forall_tile_of_forall_extent ht Hadm)]
    rw [sumVal_keyed (nodup_of_chain'_lt (chain'_lt_filter (chain'_npUnique _)))]
    by_cases hmem : z ∈ (npUnique (tile_adm_vals inp t.x t.y t.cols t.rows)).filter
        (fun w => 0 < w)
    · rw [if_pos hmem]
    · rw [if_neg hmem]
      symm
      apply sum_map_eq_zero
      intro p hp
      have hzt : inp.adm p.1 p.2 ≠ z := by
        intro he
        exact hmem (List.mem_filter.2
          ⟨mem_npUnique.2 (List.mem_map.2 ⟨p, hp, he⟩), by simp [hz]⟩)
      rw [if_neg hzt]
  exact (sum_map_congr hcong).trans (sum_over_tiles hbw hbh _)

/-- Accumulated over all blocks, the count pipeline's grouped count at any
zone code equals the direct full-raster count of urban pixels of that zone
(no validity assumptions needed). -/
theorem sumVal_stats_list {inp : Inputs} {bw bh : Nat}
    (hbw : 1 ≤ bw) (hbh : 1 ≤ bh) (z : Int) :
    sumVal (stats_list inp bw bh) z = zone_urban_count inp z := by
  unfold stats_list
  rw [sumVal_concatMap]
  have hcong : ∀ t ∈ tiles inp.width inp.height bw bh,
      sumVal (tile_count_rows inp t.x t.y t.cols t.rows) z =
      ((tile_pixels t.x t.y t.cols t.rows).map
        (fun p => if inp.adm p.1 p.2 = z ∧ inp.urban p.1 p.2 = 1 then (1 : Int) else 0)).sum := by
    intro t ht
    unfold tile_count_rows
    rw [sumVal_keyed (nodup_of_chain'_lt (chain'_npUnique _))]
    by_cases hmem : z ∈ npUnique (((tile_pixels t.x t.y t.cols t.rows).filter
        (fun p => inp.urban p.1 p.2 = 1)).map (fun p => inp.adm p.1 p.2))
    · rw [if_pos hmem]
    · rw [if_neg hmem]
      symm
      apply sum_map_eq_zero
      intro p hp
      have hno : ¬(inp.adm p.1 p.2 = z ∧ inp.urban p.1 p.2 = 1) := by
        rintro ⟨h1, h2⟩
        exact hmem (mem_npUnique.2 (List.mem_map.2
          ⟨p, List.mem_filter.2 ⟨hp, by simp [h2]⟩, h1⟩))
      rw [if_neg hno]
  exact (sum_map_congr hcong).trans (sum_over_tiles hbw hbh _)

theorem mem_list_df_keys {inp : Inputs} {g : Int} {bw bh : Nat}
    (hbw : 1 ≤ bw) (hbh : 1 ≤ bh)
    (Hpop : ∀ x, x < inp.width → ∀ y, y < inp.height → inp.pop x y ≠ inp.pop_nd)
    (Hadm : ∀ x, x < inp.width → ∀ y, y < inp.height → inp.adm x y ≠ inp.adm_nd)
    {z : Int} :
    z ∈ (list_df inp g bw bh).map (fun r => r.1) ↔
      0 < z ∧ z ∈ (raster_pixels inp.width inp.height).map (fun p => inp.adm p.1 p.2) := by
  unfold list_df
  constructor
  · intro hz
    rcases List.mem_map.1 hz with ⟨r, hr, he⟩
    rcases mem_concatMap.1 hr with ⟨t, ht, hrt⟩
    rw [tile_pop_rows_eq (tile_pixels_ne_nil hbw hbh ht)
        (forall_tile_of_forall_extent ht Hpop) (forall_tile_of_forall_extent ht Hadm)] at hrt
    rcases List.mem_map.1 hrt with ⟨k, hk, hke⟩
    have hzk : z = k := by rw [← he, ← hke]
    subst hzk
    rcases List.mem_filter.1 hk with ⟨hk1, hk2⟩
    refine ⟨by simpa using hk2, ?_⟩
    exact (mem_tile_val_iff hbw hbh _ z).1 ⟨t, ht, mem_npUnique.1 hk1⟩
  · rintro ⟨hz, hmem⟩
    rcases (mem_tile_val_iff hbw hbh _ z).2 hmem with ⟨t, ht, hzt⟩
    refine List.mem_map.2 ⟨(z, ((tile_pixels t.x t.y t.cols t.rows).map
      (fun p => if inp.adm p.1 p.2 = z then masked inp p else 0)).sum), ?_, rfl⟩
    refine mem_concatMap.2 ⟨t, ht, ?_⟩
    rw [tile_pop_rows_eq (tile_pixels_ne_nil hbw hbh ht)
        (forall_tile_of_forall_extent ht Hpop) (forall_tile_of_forall_extent ht Hadm)]
    exact List.mem_map.2 ⟨z, List.mem_filter.2 ⟨mem_npUnique.2 hzt, by simp [hz]⟩, rfl⟩

theorem mem_stats_keys {inp : Inputs} {bw bh : Nat}
    (hbw : 1 ≤ bw) (hbh : 1 ≤ bh) {z : Int} :
    z ∈ (stats_list inp bw bh).map (fun r => r.1) ↔
      ∃ p ∈ raster_pixels inp.width inp.height,
        inp.adm p.1 p.2 = z ∧ inp.urban p.1 p.2 = 1 := by
  unfold stats_list
  constructor
  · intro hz
    rcases List.mem_map.1 hz with ⟨r, hr, he⟩
    rcases mem_concatMap.1 hr with ⟨t, ht, hrt⟩
    unfold tile_count_rows at hrt
    rcases List.mem_map.1 hrt with ⟨k, hk, hke⟩
    have hzk : z = k := by rw [← he, ← hke]
    subst hzk
    rcases List.mem_map.1 (mem_npUnique.1 hk) with ⟨p, hp, hpe⟩
    rcases List.mem_filter.1 hp with ⟨hp1, hp2⟩
    exact ⟨p, mem_raster_of_mem_tile ht hp1, hpe, by simpa using hp2⟩
  · rintro ⟨p, hp, h1, h2⟩
    obtain ⟨b1, b2, b3, b4⟩ := mem_tile_pixels.1 hp
    have hw : p.1 < inp.width := by omega
    have hh : p.2 < inp.height := by omega
    rcases tiles_cover hbw hbh hw hh with ⟨t, ht, hc⟩
    refine List.mem_map.2 ⟨(z, ((tile_pixels t.x t.y t.cols t.rows).map
      (fun q => if inp.adm q.1 q.2 = z ∧ inp.urban q.1 q.2 = 1 then (1 : Int) else 0)).sum),
      ?_, rfl⟩
    refine mem_concatMap.2 ⟨t, ht, ?_⟩
    unfold tile_count_rows
    refine List.mem_map.2 ⟨z, mem_npUnique.2 (List.mem_map.2
      ⟨p, List.mem_filter.2 ⟨mem_tile_pixels.2 hc, by simp [h2]⟩, h1⟩), rfl⟩

theorem map_fst_keyed (ks : List Int) (v : Int → Int) :
    (ks.map (fun k => (k, v k))).map (fun r => r.1) = ks := by
  induction ks with
  | nil => rfl
  | cons k ks ih => simp only [List.map_cons, ih]

theorem filter_map_ne (ks : List Int) (v : Int → Int) :
    ((ks.map (fun k => (k, v k))).filter (fun r => r.1 ≠ 0)) =
      (ks.filter (fun k => k ≠ 0)).map (fun k => (k, v k)) := by
  induction ks with
  | nil => rfl
  | cons k ks ih =>
    simp only [List.map_cons, List.filter_cons]
    by_cases hp : k = 0
    · rw [if_neg (by simp [hp]), if_neg (by simp [hp])]
      exact ih
    · rw [if_pos (by simp [hp]), if_pos (by simp [hp]), List.map_cons, ih]

/-- Master refinement: on inputs whose pixels never carry a band's nodata
sentinel and whose admin codes are non-negative, the finalized table of the
block sweep equals the direct one-pass table — for every block size and every
value of the `np.empty` placeholder. -/
theorem calc_stats_eq_direct {inp : Inputs} {bw bh : Nat} {g : Int}
    (hbw : 1 ≤ bw) (hbh : 1 ≤ bh)
    (Hpop : ∀ x, x < inp.width → ∀ y, y < inp.height → inp.pop x y ≠ inp.pop_nd)
    (Hadm : ∀ x, x < inp.width → ∀ y, y < inp.height → inp.adm x y ≠ inp.adm_nd)
    (Hnn : ∀ x, x < inp.width → ∀ y, y < inp.height → 0 ≤ inp.adm x y) :
    calc_stats_table inp bw bh g = direct_table inp := by
  have hdfA : groupby_sum (list_df inp g bw bh) =
      (npUnique ((list_df inp g bw bh).map (fun r => r.1))).map
        (fun z => (z, sumVal (list_df inp g bw bh) z)) := rfl
  have hdfB : (groupby_sum (stats_list inp bw bh)).filter (fun r => r.1 ≠ 0) =
      ((npUnique ((stats_list inp bw bh).map (fun r => r.1))).filter (fun k => k ≠ 0)).map
        (fun z => (z, sumVal (stats_list inp bw bh) z)) := by
    show ((npUnique _).map _).filter _ = _
    rw [filter_map_ne]
  have hAkeys : (groupby_sum (list_df inp g bw bh)).map (fun r => r.1) =
      npUnique ((list_df inp g bw bh).map (fun r => r.1)) := by
    rw [hdfA, map_fst_keyed]
  have hBkeys : ((groupby_sum (stats_list inp bw bh)).filter
      (fun r => r.1 ≠ 0)).map (fun r => r.1) =
      (npUnique ((stats_list inp bw bh).map (fun r => r.1))).filter (fun k => k ≠ 0) := by
    rw [hdfB, map_fst_keyed]
  have hkeys : npUnique ((groupby_sum (list_df inp g bw bh)).map (fun r => r.1) ++
      ((groupby_sum (stats_list inp bw bh)).filter (fun r => r.1 ≠ 0)).map (fun r => r.1)) =
      (npUnique ((raster_pixels inp.width inp.height).map
        (fun p => inp.adm p.1 p.2))).filter (fun z => 0 < z) := by
    apply chain'_lt_ext (chain'_npUnique _) (chain'_lt_filter (chain'_npUnique _))
    intro z
    constructor
    · intro hz
      rcases List.mem_append.1 (mem_npUnique.1 hz) with h | h
      · rw [hAkeys] at h
        rcases (mem_list_df_keys hbw hbh Hpop Hadm).1 (mem_npUnique.1 h) with ⟨hzpos, hm⟩
        exact List.mem_filter.2 ⟨mem_npUnique.2 hm, by simp [hzpos]⟩
      · rw [hBkeys] at h
        rcases List.mem_filter.1 h with ⟨hm, hz0⟩
        rcases (mem_stats_keys hbw hbh).1 (mem_npUnique.1 hm) with ⟨p, hp, h1, h2⟩
        obtain ⟨b1, b2, b3, b4⟩ := mem_tile_pixels.1 hp
        have h0 : (0:Int) ≤ inp.adm p.1 p.2 := Hnn p.1 (by omega) p.2 (by omega)
        have hzne : z ≠ 0 := by simpa using hz0
        have hzpos : (0:Int) < z := by omega
        exact List.mem_filter.2
          ⟨mem_npUnique.2 (List.mem_map.2 ⟨p, hp, h1⟩), by simp [hzpos]⟩
    · intro hz
      rcases List.mem_filter.1 hz with ⟨hmk, hzp'⟩
      have hzp : (0:Int) < z := by simpa using hzp'
      apply mem_npUnique.2
      apply List.mem_append.2
      left
      rw [hAkeys]
      exact mem_npUnique.2
        ((mem_list_df_keys hbw hbh Hpop Hadm).2 ⟨hzp, mem_npUnique.1 hmk⟩)
  unfold calc_stats_table direct_table
  rw [hkeys]
  apply List.map_congr_left
  intro z hz
  rcases List.mem_filter.1 hz with ⟨hmk, hzp'⟩
  have hzp : (0:Int) < z := by simpa using hzp'
  have hmrav : z ∈ (raster_pixels inp.width inp.height).map (fun p => inp.adm p.1 p.2) :=
    mem_npUnique.1 hmk
  have hlook : lookupVal (groupby_sum (list_df inp g bw bh)) z =
      some (zone_pop_sum inp z) := by
    rw [hdfA, lookupVal_keyed_mem
      (mem_npUnique.2 ((mem_list_df_keys hbw hbh Hpop Hadm).2 ⟨hzp, hmrav⟩)),
      sumVal_list_df hbw hbh Hpop Hadm hzp]
  have hcnt : (lookupVal ((groupby_sum (stats_list inp bw bh)).filter
      (fun r => r.1 ≠ 0)) z).getD 0 = zone_urban_count inp z := by
    rw [hdfB]
    by_cases hzs : z ∈ (npUnique ((stats_list inp bw bh).map (fun r => r.1))).filter
        (fun k => k ≠ 0)
    · rw [lookupVal_keyed_mem hzs, Option.getD_some, sumVal_stats_list hbw hbh]
    · rw [lookupVal_keyed_not_mem hzs]
      have hnos : ¬ ∃ p ∈ raster_pixels inp.width inp.height,
          inp.adm p.1 p.2 = z ∧ inp.urban p.1 p.2 = 1 := by
        intro hex
        exact hzs (List.mem_filter.2
          ⟨mem_npUnique.2 ((mem_stats_keys hbw hbh).2 hex), by simp [ne_of_gt hzp]⟩)
      show (0:Int) = zone_urban_count inp z
      symm
      apply sum_map_eq_zero
      intro p hp
      exact if_neg (fun hcon => hnos ⟨p, hp, hcon⟩)
  show (z, lookupVal (groupby_sum (list_df inp g bw bh)) z,
      (lookupVal ((groupby_sum (stats_list inp bw bh)).filter (fun r => r.1 ≠ 0)) z).getD 0)
    = (z, some (zone_pop_sum inp z), zone_urban_count inp z)
  rw [hlook, hcnt]

/-- Every row of a finalized table is the outer-join row of its own key. -/
theorem mem_table_elim {inp : Inputs} {bw bh : Nat} {g : Int} {row : Int × Option Int × Int}
    (hrow : row ∈ calc_stats_table inp bw bh g) :
    row = (row.1, lookupVal (groupby_sum (list_df inp g bw bh)) row.1,
      (lookupVal ((groupby_sum (stats_list inp bw bh)).filter (fun r => r.1 ≠ 0))
        row.1).getD 0) := by
  unfold calc_stats_table at hrow
  rcases List.mem_map.1 hrow with ⟨z, _, he⟩
  rw [← he]

/-- No row of a finalized table carries zone code 0, for any input whatsoever:
the population side only ever appends rows with a positive label, and index 0
is filtered out of the count side before the join. -/
theorem table_key_ne_zero {inp : Inputs} {bw bh : Nat} {g : Int}
    {row : Int × Option Int × Int}
    (hrow : row ∈ calc_stats_table inp bw bh g) : row.1 ≠ 0 := by
  unfold calc_stats_table at hrow
  rcases List.mem_map.1 hrow with ⟨z, hz, he⟩
  have hz1 : row.1 = z := by rw [← he]
  rw [hz1]
  rcases List.mem_append.1 (mem_npUnique.1 hz) with h | h
  · have hA : (groupby_sum (list_df inp g bw bh)).map (fun r => r.1) =
        npUnique ((list_df inp g bw bh).map (fun r => r.1)) := by
      show ((npUnique _).map _).map _ = _
      rw [map_fst_keyed]
    rw [hA] at h
    rcases List.mem_map.1 (mem_npUnique.1 h) with ⟨r, hr, hre⟩
    rcases mem_concatMap.1 hr with ⟨t, ht, hrt⟩
    unfold tile_pop_rows at hrt
    rcases List.mem_map.1 hrt with ⟨k, hk, hke⟩
    rcases List.mem_filter.1 hk with ⟨_, hk2⟩
    have hkpos : (0:Int) < k := by simpa using hk2
    have hzk : z = k := by rw [← hre, ← hke]
    omega
  · have hB : ((groupby_sum (stats_list inp bw bh)).filter
        (fun r => r.1 ≠ 0)).map (fun r => r.1) =
        (npUnique ((stats_list inp bw bh).map (fun r => r.1))).filter (fun k => k ≠ 0) := by
      show (((npUnique _).map _).filter _).map _ = _
      rw [filter_map_ne, map_fst_keyed]
    rw [hB] at h
    rcases List.mem_filter.1 h with ⟨_, hz2⟩
    simpa using hz2

theorem lookup_counts_eq {inp : Inputs} {bw bh : Nat}
    (hbw : 1 ≤ bw) (hbh : 1 ≤ bh) {z : Int} (hz : z ≠ 0) :
    (lookupVal ((groupby_sum (stats_list inp bw bh)).filter (fun r => r.1 ≠ 0)) z).getD 0
      = zone_urban_count inp z := by
  have hdfB : (groupby_sum (stats_list inp bw bh)).filter (fun r => r.1 ≠ 0) =
      ((npUnique ((stats_list inp bw bh).map (fun r => r.1))).filter (fun k => k ≠ 0)).map
        (fun z => (z, sumVal (stats_list inp bw bh) z)) := by
    show ((npUnique _).map _).filter _ = _
    rw [filter_map_ne]
  rw [hdfB]
  by_cases hzs : z ∈ (npUnique ((stats_list inp bw bh).map (fun r => r.1))).filter
      (fun k => k ≠ 0)
  · rw [lookupVal_keyed_mem hzs, Option.getD_some, sumVal_stats_list hbw hbh]
  · rw [lookupVal_keyed_not_mem hzs]
    have hnos : ¬ ∃ p ∈ raster_pixels inp.width inp.height,
        inp.adm p.1 p.2 = z ∧ inp.urban p.1 p.2 = 1 := by
      intro hex
      exact hzs (List.mem_filter.2
        ⟨mem_npUnique.2 ((mem_stats_keys hbw hbh).2 hex), by simp [hz]⟩)
    show (0:Int) = zone_urban_count inp z
    symm
    apply sum_map_eq_zero
    intro p hp
    exact if_neg (fun hcon => hnos ⟨p, hp, hcon⟩)

theorem lookup_counts_not_mem {inp : Inputs} {bw bh : Nat} {z : Int}
    (habs : z ∉ (stats_list inp bw bh).map (fun r => r.1)) :
    lookupVal ((groupby_sum (stats_list inp bw bh)).filter (fun r => r.1 ≠ 0)) z = none := by
  have hdfB : (groupby_sum (stats_list inp bw bh)).filter (fun r => r.1 ≠ 0) =
      ((npUnique ((stats_list inp bw bh).map (fun r => r.1))).filter (fun k => k ≠ 0)).map
        (fun z => (z, sumVal (stats_list inp bw bh) z)) := by
    show ((npUnique _).map _).filter _ = _
    rw [filter_map_ne]
  rw [hdfB]
  apply lookupVal_keyed_not_mem
  intro hz
  exact habs (mem_npUnique.1 (List.mem_filter.1 hz).1)

/-- A window with no urban pixel appends nothing to the count accumulator. -/
theorem tile_count_rows_no_urban {inp : Inputs} {x y cols rows : Nat}
    (h : ∀ p ∈ tile_pixels x y cols rows, inp.urban p.1 p.2 ≠ 1) :
    tile_count_rows inp x y cols rows = [] := by
  unfold tile_count_rows
  have hfe : ((tile_pixels x y cols rows).filter (fun p => inp.urban p.1 p.2 = 1)) = [] := by
    rw [List.filter_eq_nil_iff]
    intro p hp
    simpa using h p hp
  rw [hfe]
  rfl

/-- A window that is entirely non-urban appends only zero-valued population
rows (the mask zeroes every population value first). -/
theorem tile_pop_rows_all_zero {inp : Inputs} {g : Int} {x y cols rows : Nat}
    (h : ∀ p ∈ tile_pixels x y cols rows, inp.urban p.1 p.2 = 0) :
    ∀ r ∈ tile_pop_rows inp g x y cols rows, r.2 = 0 := by
  intro r hr
  unfold tile_pop_rows at hr
  rcases List.mem_map.1 hr with ⟨k, _, hke⟩
  rw [← hke]
  show tile_hist_row inp g x y cols rows k = 0
  apply sum_map_eq_zero
  intro p hp
  have hm : masked inp p = 0 := by
    unfold masked
    rw [if_pos (h p hp)]
  rw [hm, ite_self]

/-- On a window whose admin band is entirely nodata, and whose placeholder bin
does not capture the nodata code, the population pipeline appends exactly one
zero-valued placeholder row when the placeholder is positive, and nothing at
all otherwise. -/
theorem tile_pop_rows_all_nodata {inp : Inputs} {g : Int} {x y cols rows : Nat}
    (h : ∀ p ∈ tile_pixels x y cols rows, inp.adm p.1 p.2 = inp.adm_nd)
    (hg : inp.adm_nd < g ∨ g + 1 < inp.adm_nd) :
    tile_pop_rows inp g x y cols rows = if 0 < g then [(g, 0)] else [] := by
  have hfe : (npUnique (tile_adm_vals inp x y cols rows)).filter
      (fun v => v ≠ inp.adm_nd) = [] := by
    rw [List.filter_eq_nil_iff]
    intro v hv
    rcases List.mem_map.1 (mem_npUnique.1 hv) with ⟨p, hp, hpe⟩
    simp [← hpe, h p hp]
  have hgb : get_bins (tile_adm_vals inp x y cols rows) inp.adm_nd g = [g, g + 1] := by
    unfold get_bins
    rw [hfe]
  unfold tile_pop_rows
  rw [hgb]
  have hdl : ([g, g + 1] : List Int).dropLast = [g] := rfl
  rw [hdl]
  by_cases h0 : 0 < g
  · have hfl : ([g] : List Int).filter (fun z => 0 < z) = [g] := by simp [h0]
    rw [hfl, if_pos h0]
    have hh : tile_hist_row inp g x y cols rows g = 0 := by
      apply sum_map_eq_zero
      intro p hp
      have hbl : binLabel (get_bins (tile_adm_vals inp x y cols rows) inp.adm_nd g)
          (inp.adm p.1 p.2) = none := by
        rw [hgb, h p hp]
        show (if g ≤ inp.adm_nd ∧ inp.adm_nd ≤ g + 1 then some g else none) = none
        rw [if_neg (by omega)]
      rw [hbl]
      simp
    rw [List.map_cons, hh]
    rfl
  · have hfl : ([g] : List Int).filter (fun z => 0 < z) = [] := by
      simp
      omega
    rw [hfl, if_neg h0]
    rfl

/-- The count rows of a window record, for zone 0 as for any other co-located
code, the exact count of its urban pixels. -/
theorem tile_count_rows_zone_zero {inp : Inputs} {x y cols rows : Nat} {p : Nat × Nat}
    (hp : p ∈ tile_pixels x y cols rows) (h0 : inp.adm p.1 p.2 = 0)
    (h1 : inp.urban p.1 p.2 = 1) :
    ((0 : Int), ((tile_pixels x y cols rows).map
      (fun q => if inp.adm q.1 q.2 = 0 ∧ inp.urban q.1 q.2 = 1 then (1 : Int) else 0)).sum)
      ∈ tile_count_rows inp x y cols rows := by
  unfold tile_count_rows
  exact List.mem_map.2 ⟨0, mem_npUnique.2 (List.mem_map.2
    ⟨p, List.mem_filter.2 ⟨hp, by simp [h1]⟩, h0⟩), rfl⟩

/-- The masked population sum of a zone equals the claim's literal wording
(sum of raw population over the zone's urban==1 pixels) when the urban mask
is binary. -/
theorem zone_pop_sum_eq_urban {inp : Inputs}
    (Hbin : ∀ x, x < inp.width → ∀ y, y < inp.height →
      inp.urban x y = 0 ∨ inp.urban x y = 1) (z : Int) :
    zone_pop_sum inp z = zone_urban_pop_sum inp z := by
  apply sum_map_congr
  intro p hp
  obtain ⟨b1, b2, b3, b4⟩ := mem_tile_pixels.1 hp
  have hb := Hbin p.1 (by omega) p.2 (by omega)
  unfold masked
  rcases hb with h | h
  · rw [h]
    simp [h]
  · have h0 : inp.urban p.1 p.2 ≠ 0 := by rw [h]; decide
    rw [if_neg h0]
    simp [h]

/-- Claim C1 (counterexample): on identical 3×1 inputs whose population
nodata sentinel 7 lies strictly inside the population value range, the sweep
with 2×1 blocks and the sweep with a single 3×1 block produce different
finalized tables (`[(1, 15, 3)]` versus `[(1, 22, 3)]`): whether a
nodata-valued pixel is dropped by `binned_statistic_2d` depends on each
block's own value range, so the aggregate is not block-size invariant. -/
theorem c1_counterexample :
    calc_stats_table exNodataRange 2 1 (-100) ≠ calc_stats_table exNodataRange 3 1 (-100) := by
  decide

/-- Claim C1 (amended): provided no pixel carries its band's nodata sentinel
and the admin codes are non-negative, the finalized per-year table of the
block sweep is identical to the aggregate computed directly over the full
raster in one pass, and any two positive block sizes (and any two placeholder
values) yield identical final tables. -/
theorem c1_tiled_eq_direct (inp : Inputs) (bw bh bw' bh' : Nat) (g g' : Int)
    (hbw : 1 ≤ bw) (hbh : 1 ≤ bh) (hbw' : 1 ≤ bw') (hbh' : 1 ≤ bh')
    (Hpop : ∀ x, x < inp.width → ∀ y, y < inp.height → inp.pop x y ≠ inp.pop_nd)
    (Hadm : ∀ x, x < inp.width → ∀ y, y < inp.height → inp.adm x y ≠ inp.adm_nd)
    (Hnn : ∀ x, x < inp.width → ∀ y, y < inp.height → 0 ≤ inp.adm x y) :
    calc_stats_table inp bw bh g = direct_table inp ∧
    calc_stats_table inp bw bh g = calc_stats_table inp bw' bh' g' := by
  have h1 := @calc_stats_eq_direct inp bw bh g hbw hbh Hpop Hadm Hnn
  have h2 := @calc_stats_eq_direct inp bw' bh' g' hbw' hbh' Hpop Hadm Hnn
  exact ⟨h1, h1.trans h2.symm⟩

/-- Claim C1 witness: the amended refinement at a concrete valid 2×2 input,
with 1×1 versus 2×2 blocks and two different placeholder values. -/
theorem c1_tiled_eq_direct_witness :
    calc_stats_table exValid 1 1 (-7) = direct_table exValid ∧
    calc_stats_table exValid 1 1 (-7) = calc_stats_table exValid 2 2 5 :=
  c1_tiled_eq_direct exValid 1 1 2 2 (-7) 5 (by decide) (by decide) (by decide) (by decide)
    (by decide) (by decide) (by decide)

/-- Claim C2 (counterexample): on a 2×1 input whose population row is
`[5, 7]` with population nodata sentinel 7, all pixels urban on zone 1, the
finalized table's only row is `(1, 5, 2)`: the nodata-valued pixel is dropped
by the bin range `[5, 6]`, so `population_sum` is 5, while the claim's sum of
the population raster values over the zone's urban==1 pixels is 5 + 7 = 12. -/
theorem c2_counterexample :
    calc_stats_table exPopNodata 2 1 0 = [(1, some 5, 2)] ∧
    zone_urban_pop_sum exPopNodata 1 = 12 := by
  decide

/-- Claim C2 (amended): the mask zeroes the population value exactly at the
pixels whose urban value is 0 (never dropping a pixel) on every input; and on
inputs with a binary urban mask, no pixel equal to the population or admin
nodata sentinel, and non-negative admin codes, every zone of the finalized
table carries as `population_sum` the sum of the population raster values
over that zone's urban==1 pixels.  On nodata-bearing inputs the equality
fails: a nodata-valued population pixel is kept or dropped depending on each
block's own bin range. -/
theorem c2_population_sum (inp : Inputs) (bw bh : Nat) (g : Int)
    (hbw : 1 ≤ bw) (hbh : 1 ≤ bh)
    (Hpop : ∀ x, x < inp.width → ∀ y, y < inp.height → inp.pop x y ≠ inp.pop_nd)
    (Hadm : ∀ x, x < inp.width → ∀ y, y < inp.height → inp.adm x y ≠ inp.adm_nd)
    (Hnn : ∀ x, x < inp.width → ∀ y, y < inp.height → 0 ≤ inp.adm x y)
    (Hbin : ∀ x, x < inp.width → ∀ y, y < inp.height →
      inp.urban x y = 0 ∨ inp.urban x y = 1) :
    (∀ p : Nat × Nat, masked inp p = if inp.urban p.1 p.2 = 0 then 0 else inp.pop p.1 p.2) ∧
    (∀ z s c, (z, s, c) ∈ calc_stats_table inp bw bh g →
      s = some (zone_urban_pop_sum inp z)) := by
  constructor
  · intro p
    rfl
  · intro z s c hrow
    rw [calc_stats_eq_direct hbw hbh Hpop Hadm Hnn] at hrow
    unfold direct_table at hrow
    rcases List.mem_map.1 hrow with ⟨k, _, he⟩
    rw [Prod.ext_iff] at he
    rcases he with ⟨hk, he2⟩
    rw [Prod.ext_iff] at he2
    rcases he2 with ⟨hs, _⟩
    simp only at hk hs
    rw [← hs, zone_pop_sum_eq_urban Hbin, hk]

/-- Claim C2 witness: the masking equation and the per-zone sum at a concrete
valid 2×2 input (its table has rows (1, 4, 2) and (2, 0, 0)). -/
theorem c2_population_sum_witness :
    (∀ p : Nat × Nat, masked exValid p =
      if exValid.urban p.1 p.2 = 0 then 0 else exValid.pop p.1 p.2) ∧
    (∀ z s c, (z, s, c) ∈ calc_stats_table exValid 2 2 0 →
      s = some (zone_urban_pop_sum exValid z)) :=
  c2_population_sum exValid 2 2 0 (by decide) (by decide) (by decide) (by decide)
    (by decide) (by decide)

/-- Claim C3: in every finalized table the `BSCNT` column of each row is
exactly the number of pixels of that row's zone whose urban value equals 1;
within each window the counts are grouped by co-located zone code including
zone 0 (a window with an urban zone-0 pixel appends a zone-0 count row); and
zone 0 is absent from every finalized table, so it is removed only at
finalization, not at the per-window stage. -/
theorem c3_urban_count (inp : Inputs) (bw bh : Nat) (g : Int)
    (hbw : 1 ≤ bw) (hbh : 1 ≤ bh) :
    (∀ z s c, (z, s, c) ∈ calc_stats_table inp bw bh g → c = zone_urban_count inp z) ∧
    (∀ x y cols rows : Nat, ∀ p ∈ tile_pixels x y cols rows,
      inp.adm p.1 p.2 = 0 → inp.urban p.1 p.2 = 1 →
      ((0 : Int), ((tile_pixels x y cols rows).map
        (fun q => if inp.adm q.1 q.2 = 0 ∧ inp.urban q.1 q.2 = 1 then (1 : Int) else 0)).sum)
        ∈ tile_count_rows inp x y cols rows) ∧
    (∀ z s c, (z, s, c) ∈ calc_stats_table inp bw bh g → z ≠ 0) := by
  refine ⟨?_, ?_, ?_⟩
  · intro z s c hrow
    have hne : z ≠ 0 := table_key_ne_zero hrow
    have helim := mem_table_elim hrow
    have hc : c = (lookupVal ((groupby_sum (stats_list inp bw bh)).filter
        (fun r => r.1 ≠ 0)) z).getD 0 := by
      have h2 := congrArg (fun r => r.2.2) helim
      simpa using h2
    rw [hc, lookup_counts_eq hbw hbh hne]
  · intro x y cols rows p hp h0 h1
    exact tile_count_rows_zone_zero hp h0 h1
  · intro z s c hrow
    exact table_key_ne_zero hrow

/-- Claim C3 witness: the count contract at a concrete valid 2×2 input. -/
theorem c3_urban_count_witness :
    (∀ z s c, (z, s, c) ∈ calc_stats_table exValid 2 2 0 →
      c = zone_urban_count exValid z) ∧
    (∀ x y cols rows : Nat, ∀ p ∈ tile_pixels x y cols rows,
      exValid.adm p.1 p.2 = 0 → exValid.urban p.1 p.2 = 1 →
      ((0 : Int), ((tile_pixels x y cols rows).map
        (fun q => if exValid.adm q.1 q.2 = 0 ∧ exValid.urban q.1 q.2 = 1
          then (1 : Int) else 0)).sum)
        ∈ tile_count_rows exValid x y cols rows) ∧
    (∀ z s c, (z, s, c) ∈ calc_stats_table exValid 2 2 0 → z ≠ 0) :=
  c3_urban_count exValid 2 2 0 (by decide) (by decide)

/-- Claim C4 (counterexample): on a 2×1 input with an urban pixel on the
negative admin code -5, the finalized table's row for zone -5 — a zone seen
only by the urban-count pipeline (the population pipeline drops non-positive
labels per window) — carries a missing (`NaN`) `population_sum`, not 0: the
null fill of line 269 is applied to `BSCNT` only, never to `BSPOP`. -/
theorem c4_counterexample :
    ((-5 : Int), (none : Option Int), (1 : Int)) ∈ calc_stats_table exNegZone 2 1 0 ∧
    (-5 : Int) ∉ (list_df exNegZone 0 2 1).map (fun r => r.1) := by
  decide

/-- Claim C4 (amended): on inputs with no nodata-valued pixels and
non-negative admin codes, a zone seen only by the urban-count pipeline cannot
occur, so every row of the finalized table carries a numeric (never missing)
`population_sum`; and a zone absent from the count pipeline receives
`urban_pixel_count = 0`, never a missing value.  An urban pixel on a negative
or nodata admin code instead yields a row whose `population_sum` is missing. -/
theorem c4_null_safety_amended (inp : Inputs) (bw bh : Nat) (g : Int)
    (hbw : 1 ≤ bw) (hbh : 1 ≤ bh)
    (Hpop : ∀ x, x < inp.width → ∀ y, y < inp.height → inp.pop x y ≠ inp.pop_nd)
    (Hadm : ∀ x, x < inp.width → ∀ y, y < inp.height → inp.adm x y ≠ inp.adm_nd)
    (Hnn : ∀ x, x < inp.width → ∀ y, y < inp.height → 0 ≤ inp.adm x y) :
    ∀ z s c, (z, s, c) ∈ calc_stats_table inp bw bh g →
      (∃ v : Int, s = some v) ∧
      (z ∉ (stats_list inp bw bh).map (fun r => r.1) → c = 0) := by
  intro z s c hrow
  constructor
  · rw [calc_stats_eq_direct hbw hbh Hpop Hadm Hnn] at hrow
    unfold direct_table at hrow
    rcases List.mem_map.1 hrow with ⟨k, _, he⟩
    rw [Prod.ext_iff] at he
    rcases he with ⟨_, he2⟩
    rw [Prod.ext_iff] at he2
    rcases he2 with ⟨hs, _⟩
    simp only at hs
    exact ⟨zone_pop_sum inp k, hs.symm⟩
  · intro habs
    have helim := mem_table_elim hrow
    have hc : c = (lookupVal ((groupby_sum (stats_list inp bw bh)).filter
        (fun r => r.1 ≠ 0)) z).getD 0 := by
      have h2 := congrArg (fun r => r.2.2) helim
      simpa using h2
    rw [hc, lookup_counts_not_mem habs]
    rfl

/-- Claim C4 witness: null-safety at the row (2, 0, 0) of a concrete valid
2×2 input (its zone 2 has no urban pixel and receives `urban_pixel_count`
0 and a numeric `population_sum`). -/
theorem c4_null_safety_amended_witness :
    (∃ v : Int, (some 0 : Option Int) = some v) ∧
    ((2 : Int) ∉ (stats_list exValid 2 2).map (fun r => r.1) → (0 : Int) = 0) :=
  c4_null_safety_amended exValid 2 2 0 (by decide) (by decide) (by decide) (by decide)
    (by decide) 2 (some 0) 0 (by decide)

/-- Claim C5: for every raster width and height ≥ 1 and block width and
height ≥ 1, every window of the sweep has positive area; a pixel lies inside
the extent exactly when some window covers it; distinct windows never overlap;
and each window's size along an axis is the full block exactly when
`offset + block < total`, and the clipped remainder `total - offset`
otherwise — including block sizes that do not divide the raster evenly. -/
theorem c5_tiling_partition (W H bw bh : Nat) (_hW : 1 ≤ W) (_hH : 1 ≤ H)
    (hbw : 1 ≤ bw) (hbh : 1 ≤ bh) :
    (∀ t ∈ tiles W H bw bh, 0 < t.cols ∧ 0 < t.rows) ∧
    (∀ p : Nat × Nat, (p.1 < W ∧ p.2 < H) ↔ ∃ t ∈ tiles W H bw bh, t.containsPix p) ∧
    (∀ t₁ ∈ tiles W H bw bh, ∀ t₂ ∈ tiles W H bw bh, t₁ ≠ t₂ →
      ∀ p : Nat × Nat, t₁.containsPix p → ¬ t₂.containsPix p) ∧
    (∀ t ∈ tiles W H bw bh,
      (¬ t.x + bw < W → t.cols = W - t.x) ∧ (t.x + bw < W → t.cols = bw) ∧
      (¬ t.y + bh < H → t.rows = H - t.y) ∧ (t.y + bh < H → t.rows = bh)) := by
  refine ⟨?_, ?_, ?_, ?_⟩
  · intro t ht
    rcases mem_tiles.1 ht with ⟨hx, hy, hc, hr⟩
    exact ⟨hc ▸ tile_dim_pos hbw (mem_offsets.1 hx).1,
      hr ▸ tile_dim_pos hbh (mem_offsets.1 hy).1⟩
  · intro p
    constructor
    · intro hp
      exact tiles_cover hbw hbh hp.1 hp.2
    · rintro ⟨t, ht, hc⟩
      exact containsPix_lt ht hc
  · intro t₁ h₁ t₂ h₂ hne p hc₁ hc₂
    exact hne (tiles_unique h₁ h₂ hc₁ hc₂)
  · intro t ht
    rcases mem_tiles.1 ht with ⟨_, _, hc, hr⟩
    refine ⟨?_, ?_, ?_, ?_⟩ <;> intro hcond
    · rw [hc]; unfold tile_dim; rw [if_neg hcond]
    · rw [hc]; unfold tile_dim; rw [if_pos hcond]
    · rw [hr]; unfold tile_dim; rw [if_neg hcond]
    · rw [hr]; unfold tile_dim; rw [if_pos hcond]

/-- Claim C5 witness: the partition properties on a 5×3 raster swept with
2×2 blocks (the blocks do not divide either dimension evenly). -/
theorem c5_tiling_partition_witness :
    (∀ t ∈ tiles 5 3 2 2, 0 < t.cols ∧ 0 < t.rows) ∧
    (∀ p : Nat × Nat, (p.1 < 5 ∧ p.2 < 3) ↔ ∃ t ∈ tiles 5 3 2 2, t.containsPix p) ∧
    (∀ t₁ ∈ tiles 5 3 2 2, ∀ t₂ ∈ tiles 5 3 2 2, t₁ ≠ t₂ →
      ∀ p : Nat × Nat, t₁.containsPix p → ¬ t₂.containsPix p) ∧
    (∀ t ∈ tiles 5 3 2 2,
      (¬ t.x + 2 < 5 → t.cols = 5 - t.x) ∧ (t.x + 2 < 5 → t.cols = 2) ∧
      (¬ t.y + 2 < 3 → t.rows = 3 - t.y) ∧ (t.y + 2 < 3 → t.rows = 2)) :=
  c5_tiling_partition 5 3 2 2 (by decide) (by decide) (by decide) (by decide)

/-- Claim C6 (counterexample): `get_bins` can return a bin edge equal to the
given nodata value — `get_bins [1, 2] 3 = [1, 2, 3]`, because the appended
terminal edge `max + 1` is not checked against nodata — and the admin bin set
actually used for a window's sum aggregation does contain zone code 0 when
zone 0 is present (here the bins of a window of `exZoneZero` are
`[0, 5, 6]`): zone 0 is only filtered from the emitted rows downstream. -/
theorem c6_counterexample :
    (3 : Int) ∈ get_bins [1, 2] 3 0 ∧
    (0 : Int) ∈ get_bins (tile_adm_vals exZoneZero 0 0 2 1) exZoneZero.adm_nd 0 := by
  decide

/-- Claim C6 (amended): whenever a buffer holds at least one non-nodata
value, the bin labels of `get_bins` (every edge except the final appended
one) never equal the nodata value; zone code 0, however, is not excluded from
bin sets — instead no finalized table ever carries a zone-0 row, because the
population pipeline drops non-positive labels per window and the count
pipeline drops index 0 at finalization. -/
theorem c6_bins_amended :
    (∀ (data : List Int) (nd g : Int), (∃ v ∈ data, v ≠ nd) →
      ∀ w ∈ (get_bins data nd g).dropLast, w ≠ nd) ∧
    (∀ (inp : Inputs) (bw bh : Nat) (g : Int) (z : Int) (s : Option Int) (c : Int),
      (z, s, c) ∈ calc_stats_table inp bw bh g → z ≠ 0) := by
  constructor
  · rintro data nd g ⟨v, hv, hne⟩ w hw
    rw [get_bins_nonempty hv hne, dropLast_append_singleton] at hw
    rcases List.mem_filter.1 hw with ⟨_, h2⟩
    simpa using h2
  · intro inp bw bh g z s c hrow
    exact table_key_ne_zero hrow

/-- Claim C7 (code bug): a degenerate window is not a no-op.  On a 1×1 raster
whose single admin pixel is nodata (code 99) and urban with population 10,
the `np.empty(1,)` placeholder bin of `get_bins` holds an unspecified value;
when that value happens to be 99 the placeholder bin `[99, 100]` captures the
nodata pixels, and the whole window's population and count are attributed to
a spurious zone 99 in the finalized table, instead of contributing nothing. -/
theorem c7_degenerate_tile_bug :
    calc_stats_table exAllNodataUrban 1 1 99 = [(99, some 10, 1)] := by
  decide

/-- Claim C8: zone code 0 never appears as a row of a finalized per-year
table, for every input raster content, block size and placeholder value. -/
theorem c8_zone_zero_excluded (inp : Inputs) (bw bh : Nat) (g : Int)
    (z : Int) (s : Option Int) (c : Int)
    (hrow : (z, s, c) ∈ calc_stats_table inp bw bh g) : z ≠ 0 :=
  table_key_ne_zero hrow

/-- Claim C8 witness: at a concrete input containing zone-0 pixels, the
sole zone-0-free row (5, 4, 2) of the table is indeed not zone 0. -/
theorem c8_zone_zero_excluded_witness : (5 : Int) ≠ 0 :=
  c8_zone_zero_excluded exZoneZero 2 1 0 5 (some 4) 1 (by decide)

/-- Claim C9 (modelled from the spec): `concat_dataframes` stacks every
present per-year table into one long-format series tagged with year, and
fails with `MissingInputError` as soon as any year's table is absent, rather
than silently skipping that year. -/
theorem c9_concat_dataframes
    (tables : List (Int × Option (List (Int × Option Int × Int)))) :
    ((∀ yt ∈ tables, yt.2.isSome) → concat_dataframes tables =
      Except.ok (concatMap (fun yt => (yt.2.getD []).map (fun r => (yt.1, r))) tables)) ∧
    ((∃ yt ∈ tables, yt.2 = none) → concat_dataframes tables =
      Except.error "MissingInputError") := by
  induction tables with
  | nil =>
    constructor
    · intro _
      rfl
    · rintro ⟨yt, hyt, _⟩
      cases hyt
  | cons a rest ih =>
    rcases a with ⟨y, t?⟩
    cases t? with
    | none =>
      constructor
      · intro hall
        have h := hall (y, none) (List.mem_cons_self _ _)
        simp at h
      · intro _
        rfl
    | some t =>
      constructor
      · intro hall
        have hrest := ih.1 (fun yt hyt => hall yt (List.mem_cons_of_mem _ hyt))
        show (match concat_dataframes rest with
          | Except.ok rows => Except.ok ((t.map (fun r => (y, r))) ++ rows)
          | Except.error e => Except.error e) = _
        rw [hrest]
        rfl
      · rintro ⟨yt, hyt, hnone⟩
        rcases List.mem_cons.1 hyt with h | h
        · rw [h] at hnone
          cases hnone
        · have hrest := ih.2 ⟨yt, h, hnone⟩
          show (match concat_dataframes rest with
            | Except.ok rows => Except.ok ((t.map (fun r => (y, r))) ++ rows)
            | Except.error e => Except.error e) = _
          rw [hrest]

/-- Claim C9 witness: both branches at concrete year tables. -/
theorem c9_concat_dataframes_witness :
    concat_dataframes [(2000, some [(1, some 5, 2)]), (2012, some [])] =
      Except.ok [(2000, 1, some 5, 2)] ∧
    concat_dataframes [(2000, some [(1, some 5, 2)]), (2012, none)] =
      Except.error "MissingInputError" := by
  constructor
  · have h := (c9_concat_dataframes [(2000, some [(1, some 5, 2)]), (2012, some [])]).1
      (by decide)
    rw [h]
    rfl
  · exact (c9_concat_dataframes [(2000, some [(1, some 5, 2)]), (2012, none)]).2
      ⟨(2012, none), by decide, rfl⟩

/-- Claim C10 (code bug): `calc_stats` is not deterministic.  On a 1×1 raster
whose single admin pixel is nodata, the finalized table's sole row is
labelled by whatever value the uninitialized `np.empty(1,)` buffer happens to
hold: two runs whose placeholder memory differs (here 5 versus 6) produce
different finalized tables on identical inputs and identical block size. -/
theorem c10_nondeterminism_bug :
    calc_stats_table exAllNodataQuiet 1 1 5 ≠ calc_stats_table exAllNodataQuiet 1 1 6 := by
  decide

/-- Claim C6 witness: the amended lemma at a concrete buffer (labels of
`get_bins [1, 2] 3` avoid the nodata value 3) and at a concrete table row. -/
theorem c6_bins_amended_witness : (2 : Int) ≠ 3 ∧ (5 : Int) ≠ 0 :=
  ⟨c6_bins_amended.1 [1, 2] 3 0 (by decide) 2 (by decide),
   c6_bins_amended.2 exZoneZero 2 1 0 5 (some 4) 1 (by decide)⟩
